import Mathlib

/-!
Verification of the `mcp-server-sensory` codec layer and tool dispatcher.

Python strings are modelled as `List Char`.  The dispatcher `call_tool` and
the orchestrator `transcode` are embedded from `server.py`.  The two codec
modules `morse` and `braille` are not part of the provided sources (only the
package re-exports them), so their functions are modelled from the spec, as
indicated on each definition.
-/

/-- A Python string, modelled as its list of characters. -/
abbrev Str := List Char

/-- Modelled from the spec: the Morse alphabet table (missing `encoders/morse.py`).
Covers A–Z, 0–9 and the named punctuation (period, comma, question mark,
exclamation mark), each mapped to its dot/dash token, per §4.1. -/
def morseTable : List (Char × Str) :=
  [ ('A', ".-".toList), ('B', "-...".toList), ('C', "-.-.".toList),
    ('D', "-..".toList), ('E', ".".toList), ('F', "..-.".toList),
    ('G', "--.".toList), ('H', "....".toList), ('I', "..".toList),
    ('J', ".---".toList), ('K', "-.-".toList), ('L', ".-..".toList),
    ('M', "--".toList), ('N', "-.".toList), ('O', "---".toList),
    ('P', ".--.".toList), ('Q', "--.-".toList), ('R', ".-.".toList),
    ('S', "...".toList), ('T', "-".toList), ('U', "..-".toList),
    ('V', "...-".toList), ('W', ".--".toList), ('X', "-..-".toList),
    ('Y', "-.--".toList), ('Z', "--..".toList),
    ('0', "-----".toList), ('1', ".----".toList), ('2', "..---".toList),
    ('3', "...--".toList), ('4', "....-".toList), ('5', ".....".toList),
    ('6', "-....".toList), ('7', "--...".toList), ('8', "---..".toList),
    ('9', "----.".toList),
    ('.', ".-.-.-".toList), (',', "--..--".toList), ('?', "..--..".toList),
    ('!', "-.-.--".toList) ]

/-- Forward lookup in the Morse alphabet table. -/
def findCode (c : Char) : Option Str :=
  (morseTable.find? (fun p => p.1 == c)).map (·.2)

/-- Inverse lookup in the Morse alphabet table. -/
def findChar (tok : Str) : Option Char :=
  (morseTable.find? (fun p => p.2 == tok)).map (·.1)

/-- The output-format selector of `morse.encode` (spec §4.1 / §9: a closed
tagged variant). -/
inductive MorseFormat
  | STANDARD
  | VISUAL
  | BINARY
deriving DecidableEq

/-- Modelled from the spec: per-format rendering of a single dot/dash glyph.
The tool description in `server.py` fixes the glyph pairs:
standard `.-`, visual `█▄`, binary `10` (dot first, dash second). -/
def symGlyph : MorseFormat → Char → Char
  | .STANDARD, c => c
  | .VISUAL, c => if c = '.' then '█' else '▄'
  | .BINARY, c => if c = '.' then '1' else '0'

/-- Per-format rendering of one Morse token; the word separator `/` is kept
as-is in every format. -/
def tokenRender : MorseFormat → Str → Str
  | .STANDARD, tok => tok
  | fmt, tok => if tok = ['/'] then tok else tok.map (symGlyph fmt)

/-- Modelled from the spec: the token contributed by one (already
uppercased) input character: a space becomes the word separator `/`,
an alphabet character becomes its dot/dash token, anything else is
dropped (the documented fallback policy is "drop", applied consistently
with `braille.encode`). -/
def tokenOfChar (c : Char) : Option Str :=
  if c = ' ' then some ['/'] else findCode c

namespace morse

/-- Modelled from the spec: the token sequence of a text (uppercase first,
then one token per supported character, unsupported characters dropped). -/
def encodeTokens (t : Str) : List Str :=
  (t.map Char.toUpper).filterMap tokenOfChar

/-- Modelled from the spec: `morse.encode` (missing `encoders/morse.py`).
Tokens are joined with a single space; words are separated by `/`. -/
def encode (t : Str) (fmt : MorseFormat) : Str :=
  List.intercalate [' '] ((encodeTokens t).map (tokenRender fmt))

/-- Modelled from the spec: decoding of one Morse token.  `/` is the word
separator; an empty token (from consecutive separators) is skipped; an
unrecognized token resolves to the `?` placeholder and never fails. -/
def decodeToken (tok : Str) : Str :=
  if tok = [] then []
  else if tok = ['/'] then [' ']
  else match findChar tok with
       | some c => [c]
       | none => ['?']

/-- Modelled from the spec: `morse.decode` (missing `encoders/morse.py`).
Split on the letter separator, decode each token, concatenate. -/
def decode (m : Str) : Str :=
  ((m.splitOn ' ').map decodeToken).flatten

/-- Modelled from the spec: on-durations of a single dot (`1×unit`) or
dash (`3×unit`). -/
def symbolTiming (u : Nat) (c : Char) : Option (Bool × Nat) :=
  if c = '.' then some (true, u)
  else if c = '-' then some (true, 3 * u)
  else none

/-- Modelled from the spec: the timing of one letter: its symbols with an
intra-symbol `1×unit` off-gap between consecutive symbols. -/
def letterTiming (u : Nat) (tok : Str) : List (Bool × Nat) :=
  List.intersperse (false, u) (tok.filterMap (symbolTiming u))

/-- Modelled from the spec: `morse.to_timing` (missing `encoders/morse.py`).
Letters inside a word are joined with a `3×unit` off-gap, words with a
`7×unit` off-gap; no gap is emitted after the final symbol. -/
def to_timing (m : Str) (u : Nat) : List (Bool × Nat) :=
  List.intercalate [(false, 7 * u)]
    (((((m.splitOn ' ').splitOn ['/']).map (fun w =>
      List.intercalate [(false, 3 * u)]
        ((w.map (letterTiming u)).filter (fun l => !l.isEmpty)))).filter
          (fun l => !l.isEmpty)))

end morse

/-- Modelled from the spec: the Braille alphabet table (missing
`encoders/braille.py`): char ↦ 6-dot bitmask (bit i = dot i+1; dots 1–3 the
left column top-to-bottom, dots 4–6 the right column).  A–Z use the standard
letter cells, digits use the distinct "lowered a–j" computer-braille cells
(documented choice keeping the table injective), space is the blank cell. -/
def brailleTable : List (Char × Nat) :=
  [ ('A', 0x01), ('B', 0x03), ('C', 0x09), ('D', 0x19), ('E', 0x11),
    ('F', 0x0B), ('G', 0x1B), ('H', 0x13), ('I', 0x0A), ('J', 0x1A),
    ('K', 0x05), ('L', 0x07), ('M', 0x0D), ('N', 0x1D), ('O', 0x15),
    ('P', 0x0F), ('Q', 0x1F), ('R', 0x17), ('S', 0x0E), ('T', 0x1E),
    ('U', 0x25), ('V', 0x27), ('W', 0x3A), ('X', 0x2D), ('Y', 0x3D),
    ('Z', 0x35),
    ('1', 0x02), ('2', 0x06), ('3', 0x12), ('4', 0x32), ('5', 0x22),
    ('6', 0x16), ('7', 0x36), ('8', 0x26), ('9', 0x14), ('0', 0x34),
    (' ', 0x00) ]

/-- Dot-bitmask lookup for one (already uppercased) character. -/
def findMask (c : Char) : Option Nat :=
  (brailleTable.find? (fun p => p.1 == c)).map (·.2)

/-- The Braille Unicode cell of a dot bitmask (U+2800 block). -/
def cellChar (m : Nat) : Char :=
  Char.ofNat (0x2800 + m)

namespace braille

/-- Modelled from the spec: `braille.encode` (missing `encoders/braille.py`).
Case-insensitive, one U+2800-block cell per eligible character, unsupported
characters dropped (same fallback policy as Morse). -/
def encode (t : Str) : Str :=
  (t.map Char.toUpper).filterMap (fun c => (findMask c).map cellChar)

/-- Modelled from the spec: decoding of one Braille cell; an unknown code
point resolves to the `?` placeholder and never fails. -/
def decodeCell (ch : Char) : Char :=
  match brailleTable.find? (fun p => cellChar p.2 == ch) with
  | some p => p.1
  | none => '?'

/-- Modelled from the spec: `braille.decode` (missing `encoders/braille.py`). -/
def decode (b : Str) : Str :=
  b.map decodeCell

/-- The two grid bits contributed by one cell on dot row `r` (left column
dot `r+1` is bit `r`, right column dot `r+4` is bit `r+3`). -/
def cellBits (m : Nat) (r : Nat) : List Nat :=
  [if m.testBit r then 1 else 0, if m.testBit (r + 3) then 1 else 0]

/-- Modelled from the spec: `braille.to_binary_grid` (missing
`encoders/braille.py`): 3 fixed rows, two columns per eligible character. -/
def to_binary_grid (t : Str) : List (List Nat) :=
  (List.range 3).map (fun r =>
    (((t.map Char.toUpper).filterMap findMask).map (fun m => cellBits m r)).flatten)

/-- Modelled from the spec: the punchcard renderer: each cell becomes a
`w×h` block scaling the 2×3 dot grid (`#` for a raised dot, `.` for
background), blocks joined with one blank column, lines joined with
newlines. -/
def punchRender (t : Str) (w h : Nat) : Str :=
  let cells := (t.map Char.toUpper).filterMap findMask
  let line := fun (r : Nat) =>
    List.intercalate [' '] (cells.map (fun m =>
      (List.range w).map (fun cidx =>
        if m.testBit ((cidx * 2 / w) * 3 + r * 3 / h) then '#' else '.')))
  List.intercalate ['\n'] ((List.range h).map line)

/-- The descriptive error for punchcard cell dimensions that cannot hold
the 2×3 dot grid. -/
def punchErrMsg : Str :=
  "punchcard cell too small: need cell_width >= 2 and cell_height >= 3".toList

/-- Modelled from the spec: `braille.to_punchcard_pattern` (missing
`encoders/braille.py`): dimensions below 2×3 are rejected with a
descriptive error before any rendering. -/
def to_punchcard_pattern (t : Str) (w h : Nat) : Except Str Str :=
  if w < 2 ∨ h < 3 then .error punchErrMsg
  else .ok (punchRender t w h)

end braille

/-- The parsed argument dictionary of a tool call (`arguments` in
`server.py`): each key the dispatcher reads, as an optional field
(`none` = key absent).  The Python keys `morse` and `braille` are the
fields `morse_code` and `braille_text`. -/
structure Args where
  text : Option Str
  format : Option Str
  morse_code : Option Str
  braille_text : Option Str
  unit_ms : Option Nat
  cell_width : Option Nat
  cell_height : Option Nat
  input : Option Str
  from_format : Option Str
  to_format : Option Str

/-- Decimal rendering of a natural number, for the JSON adapter. -/
def jsonNat (n : Nat) : Str :=
  (toString n).toList

/-- JSON array of pre-rendered items. -/
def jsonList (items : List Str) : Str :=
  "[".toList ++ List.intercalate ", ".toList items ++ "]".toList

/-- One timing entry as JSON (signal state rendered `on`/`off`). -/
def jsonTimingEntry (e : Bool × Nat) : Str :=
  "[\"".toList ++ (if e.1 then "on".toList else "off".toList)
    ++ "\", ".toList ++ jsonNat e.2 ++ "]".toList

/-- `json.dumps` of a timing schedule (adapter layer of `server.py`). -/
def jsonTiming (tl : List (Bool × Nat)) : Str :=
  jsonList (tl.map jsonTimingEntry)

/-- `json.dumps` of a binary grid (adapter layer of `server.py`). -/
def jsonGrid (g : List (List Nat)) : Str :=
  jsonList (g.map (fun row => jsonList (row.map jsonNat)))

/-- The `transcode` branch of `call_tool` in `server.py`: first convert the
input to text (morse/braille decode, otherwise the input itself), then
convert the text to the target format (`to_punchcard_pattern` is called
with its defaults 4 and 6, which pass validation, so the renderer runs). -/
def transcode (input from_fmt to_fmt : Str) : Str :=
  let text :=
    if from_fmt = "morse".toList then morse.decode input
    else if from_fmt = "braille".toList then braille.decode input
    else input
  if to_fmt = "morse".toList then morse.encode text .STANDARD
  else if to_fmt = "morse_visual".toList then morse.encode text .VISUAL
  else if to_fmt = "braille".toList then braille.encode text
  else if to_fmt = "punchcard".toList then braille.punchRender text 4 6
  else text

/-- The first stage of the orchestrator as the spec words it: decode the
source format to text (`morse.decode` for morse, `braille.decode` for
braille, identity for text). -/
def decodeStage (from_fmt : Str) (input : Str) : Str :=
  if from_fmt = "morse".toList then morse.decode input
  else if from_fmt = "braille".toList then braille.decode input
  else input

/-- The second stage of the orchestrator as the spec words it: encode the
intermediate text to the target format. -/
def encodeStage (to_fmt : Str) (text : Str) : Str :=
  if to_fmt = "morse".toList then morse.encode text .STANDARD
  else if to_fmt = "morse_visual".toList then morse.encode text .VISUAL
  else if to_fmt = "braille".toList then braille.encode text
  else if to_fmt = "punchcard".toList then braille.punchRender text 4 6
  else text

/-- The tool dispatcher `call_tool` of `server.py`.  `none` models a raised
exception (a missing required argument key, or a codec error); `some r`
models the text content of the response. -/
def call_tool (name : Str) (args : Args) : Option Str :=
  if name = "morse_encode".toList then
    match args.text with
    | none => none
    | some text =>
      let fmt := args.format.getD "standard".toList
      let fe :=
        if fmt = "standard".toList then MorseFormat.STANDARD
        else if fmt = "visual".toList then MorseFormat.VISUAL
        else if fmt = "binary".toList then MorseFormat.BINARY
        else MorseFormat.STANDARD
      some (morse.encode text fe)
  else if name = "morse_decode".toList then
    args.morse_code.map morse.decode
  else if name = "morse_timing".toList then
    match args.text with
    | none => none
    | some text =>
      some (jsonTiming
        (morse.to_timing (morse.encode text .STANDARD) (args.unit_ms.getD 100)))
  else if name = "braille_encode".toList then
    args.text.map braille.encode
  else if name = "braille_decode".toList then
    args.braille_text.map braille.decode
  else if name = "braille_punchcard".toList then
    match args.text with
    | none => none
    | some text =>
      match braille.to_punchcard_pattern text
          (args.cell_width.getD 4) (args.cell_height.getD 6) with
      | .ok s => some s
      | .error _ => none
  else if name = "braille_binary_grid".toList then
    args.text.map (fun t => jsonGrid (braille.to_binary_grid t))
  else if name = "transcode".toList then
    match args.input, args.from_format, args.to_format with
    | some i, some f, some t => some (transcode i f t)
    | _, _, _ => none
  else
    some ("Unknown tool: ".toList ++ name)

/-- The eight tool names declared by `list_tools` in `server.py`. -/
def toolNames : List Str :=
  [ "morse_encode".toList, "morse_decode".toList, "morse_timing".toList,
    "braille_encode".toList, "braille_decode".toList,
    "braille_punchcard".toList, "braille_binary_grid".toList,
    "transcode".toList ]


/-- The uppercase, alphabet-restricted projection of a text (the right-hand
side of the spec's round-trip guarantee): uppercase, then keep only spaces
and Morse-alphabet characters. -/
def morseProj (t : Str) : Str :=
  (t.map Char.toUpper).filter (fun c => c == ' ' || (findCode c).isSome)

/-- A character the Morse alphabet supports (case-insensitively): a space,
or a character whose uppercase form is in the table. -/
def morseSupported (c : Char) : Bool :=
  c.toUpper == ' ' || (findCode c.toUpper).isSome

theorem morseTable_facts :
    ∀ p ∈ morseTable, p.2 ≠ [] ∧ ' ' ∉ p.2 ∧ p.2 ≠ ['/'] ∧ findChar p.2 = some p.1 := by
  decide

theorem findCode_props {c : Char} {code : Str} (h : findCode c = some code) :
    code ≠ [] ∧ ' ' ∉ code ∧ code ≠ ['/'] ∧ findChar code = some c := by
  unfold findCode at h
  cases hf : morseTable.find? (fun p => p.1 == c) with
  | none => rw [hf] at h; simp at h
  | some p =>
    rw [hf] at h
    simp only [Option.map_some', Option.some.injEq] at h
    have hmem := List.mem_of_find?_eq_some hf
    have hpc : p.1 = c := by
      have := List.find?_some hf
      simpa using this
    have hfacts := morseTable_facts p hmem
    rw [h, hpc] at hfacts
    exact hfacts

theorem decodeToken_code {c : Char} {code : Str} (h : findCode c = some code) :
    morse.decodeToken code = [c] := by
  obtain ⟨hne, -, hslash, hfind⟩ := findCode_props h
  unfold morse.decodeToken
  rw [if_neg hne, if_neg hslash, hfind]

theorem decodeToken_slash : morse.decodeToken ['/'] = [' '] := by decide

theorem tokens_decode (t : Str) :
    ((morse.encodeTokens t).map morse.decodeToken).flatten = morseProj t := by
  unfold morse.encodeTokens morseProj
  induction t with
  | nil => rfl
  | cons c rest ih =>
    rw [List.map_cons, List.filter_cons]
    by_cases hsp : c.toUpper = ' '
    · have htok : tokenOfChar c.toUpper = some ['/'] := by
        unfold tokenOfChar; rw [if_pos hsp]
      rw [List.filterMap_cons_some htok, List.map_cons, List.flatten_cons,
        decodeToken_slash, List.singleton_append,
        if_pos (show ((fun c => c == ' ' || (findCode c).isSome) c.toUpper) = true by
          rw [hsp]; decide), hsp]
      exact congrArg (List.cons ' ') ih
    · have htok : tokenOfChar c.toUpper = findCode c.toUpper := by
        unfold tokenOfChar; rw [if_neg hsp]
      rcases hcode : findCode c.toUpper with _ | code
      · rw [List.filterMap_cons_none (htok.trans hcode),
          if_neg (show ¬((c.toUpper == ' ' || (none : Option Str).isSome) = true) by
            simp [hsp])]
        exact ih
      · rw [List.filterMap_cons_some (htok.trans hcode), List.map_cons,
          List.flatten_cons, decodeToken_code hcode, List.singleton_append,
          if_pos (show ((c.toUpper == ' ' || (some code).isSome) = true) by simp)]
        exact congrArg (List.cons c.toUpper) ih

theorem encodeTokens_space_free (t : Str) :
    ∀ tok ∈ morse.encodeTokens t, ' ' ∉ tok := by
  intro tok htok
  unfold morse.encodeTokens at htok
  rw [List.mem_filterMap] at htok
  obtain ⟨c, -, hc⟩ := htok
  unfold tokenOfChar at hc
  by_cases h : c = ' '
  · rw [if_pos h] at hc
    cases hc
    decide
  · rw [if_neg h] at hc
    exact (findCode_props hc).2.1

theorem tokenRender_std (tok : Str) : tokenRender .STANDARD tok = tok := rfl

theorem morse_roundtrip (t : Str) :
    morse.decode (morse.encode t .STANDARD) = morseProj t := by
  have hstd : tokenRender MorseFormat.STANDARD = fun tok => tok := funext fun _ => rfl
  rw [← tokens_decode t]
  unfold morse.decode morse.encode
  rw [hstd, List.map_id']
  rcases h : morse.encodeTokens t with _ | ⟨tok, toks⟩
  · decide
  · rw [← h]
    rw [List.splitOn_intercalate (morse.encodeTokens t) ' '
      (fun l hl => encodeTokens_space_free t l hl)
      (by rw [h]; exact List.cons_ne_nil _ _)]

theorem morseProj_of_supported {t : Str} (h : ∀ c ∈ t, morseSupported c = true) :
    morseProj t = t.map Char.toUpper := by
  unfold morseProj
  rw [List.filter_eq_self]
  intro a ha
  rw [List.mem_map] at ha
  obtain ⟨c, hc, rfl⟩ := ha
  exact h c hc

theorem morse_roundtrip_upper {t : Str} (h : ∀ c ∈ t, morseSupported c = true) :
    morse.decode (morse.encode t .STANDARD) = t.map Char.toUpper :=
  (morse_roundtrip t).trans (morseProj_of_supported h)

/-- **C1.** For every input text `t` consisting only of Morse-alphabet
characters (letters, digits, spaces), `morse.decode (morse.encode t STANDARD)`
equals `uppercase t`; for arbitrary input text, the composition reproduces
exactly the uppercase, alphabet-restricted projection of the input. -/
theorem c1_morse_encode_decode_roundtrip :
    (∀ t : Str, morse.decode (morse.encode t .STANDARD) = morseProj t) ∧
    (∀ t : Str, (∀ c ∈ t, morseSupported c = true) →
      morse.decode (morse.encode t .STANDARD) = t.map Char.toUpper) :=
  ⟨morse_roundtrip, fun _ h => morse_roundtrip_upper h⟩

theorem c1_morse_encode_decode_roundtrip_witness :
    morse.decode (morse.encode "Sensory 123".toList .STANDARD)
      = "Sensory 123".toList.map Char.toUpper :=
  c1_morse_encode_decode_roundtrip.2 "Sensory 123".toList (by decide)

/-- **C2.** For every input string and all format selectors, `transcode`
equals the two-stage composition: decode the source format to text
(`morse.decode` for morse, `braille.decode` for braille, identity for text),
then encode that text to the target format (`morse.encode` STANDARD for
morse, VISUAL for morse_visual, `braille.encode` for braille, the punchcard
renderer with its defaults for punchcard, identity for text); no other
conversion path exists. -/
theorem c2_transcode_is_decode_then_encode :
    ∀ input from_fmt to_fmt : Str,
      transcode input from_fmt to_fmt
        = encodeStage to_fmt (decodeStage from_fmt input) :=
  fun _ _ _ => rfl

/-- **C3.** For every text consisting only of Morse-alphabet characters,
`transcode (transcode text "text" "morse") "morse" "text"` equals the
uppercase of the text. -/
theorem c3_transcode_morse_roundtrip (t : Str)
    (h : ∀ c ∈ t, morseSupported c = true) :
    transcode (transcode t "text".toList "morse".toList)
        "morse".toList "text".toList
      = t.map Char.toUpper := by
  have hstep : transcode (transcode t "text".toList "morse".toList)
      "morse".toList "text".toList
      = morse.decode (morse.encode t .STANDARD) := rfl
  rw [hstep]
  exact morse_roundtrip_upper h

theorem c3_transcode_morse_roundtrip_witness :
    transcode (transcode "sos sos".toList "text".toList "morse".toList)
        "morse".toList "text".toList
      = "sos sos".toList.map Char.toUpper :=
  c3_transcode_morse_roundtrip "sos sos".toList (by decide)

/-- **C10.** For every input string `s`, `transcode s "text" "text"` returns
`s` unchanged: no uppercasing, filtering or alphabet projection happens on
the text-to-text path. -/
theorem c10_transcode_text_to_text_id :
    ∀ s : Str, transcode s "text".toList "text".toList = s :=
  fun _ => rfl

/-- **C8.** For every tool name outside the eight declared operations, the
dispatcher returns the defined "Unknown tool" text response naming the tool,
rather than failing. -/
theorem c8_unknown_tool_response (name : Str) (args : Args)
    (h : name ∉ toolNames) :
    call_tool name args = some ("Unknown tool: ".toList ++ name) := by
  unfold toolNames at h
  simp only [List.mem_cons, List.not_mem_nil, or_false, not_or] at h
  obtain ⟨h1, h2, h3, h4, h5, h6, h7, h8⟩ := h
  unfold call_tool
  rw [if_neg h1, if_neg h2, if_neg h3, if_neg h4, if_neg h5, if_neg h6,
    if_neg h7, if_neg h8]

theorem c8_unknown_tool_response_witness :
    call_tool "list_tools".toList
        ⟨none, none, none, none, none, none, none, none, none, none⟩
      = some ("Unknown tool: ".toList ++ "list_tools".toList) :=
  c8_unknown_tool_response "list_tools".toList
    ⟨none, none, none, none, none, none, none, none, none, none⟩ (by decide)

/-- **C9.** For the `morse_encode` tool, a `format` argument outside
`{standard, visual, binary}`, or an absent `format` argument, is silently
treated as STANDARD: the call returns `morse.encode text STANDARD` and never
errors on the format value. -/
theorem c9_morse_encode_format_fallback (args : Args) (text : Str)
    (htext : args.text = some text)
    (hfmt : args.format = none ∨ ∃ f, args.format = some f ∧
      f ≠ "standard".toList ∧ f ≠ "visual".toList ∧ f ≠ "binary".toList) :
    call_tool "morse_encode".toList args
      = some (morse.encode text MorseFormat.STANDARD) := by
  unfold call_tool
  rw [if_pos rfl, htext]
  rcases hfmt with hnone | ⟨f, hf, h1, h2, h3⟩
  · rw [hnone]
    rfl
  · rw [hf]
    simp only [Option.getD_some]
    rw [if_neg h1, if_neg h2, if_neg h3]

theorem c9_morse_encode_format_fallback_witness :
    call_tool "morse_encode".toList
        ⟨some "hi".toList, some "fancy".toList, none, none, none, none, none,
          none, none, none⟩
      = some (morse.encode "hi".toList MorseFormat.STANDARD) :=
  c9_morse_encode_format_fallback
    ⟨some "hi".toList, some "fancy".toList, none, none, none, none, none,
      none, none, none⟩
    "hi".toList rfl (Or.inr ⟨"fancy".toList, rfl, by decide, by decide, by decide⟩)

theorem flatten_cellBits_length (cells : List Nat) (r : Nat) :
    ((cells.map (fun m => braille.cellBits m r)).flatten).length = 2 * cells.length := by
  induction cells with
  | nil => rfl
  | cons m rest ih =>
    rw [List.map_cons, List.flatten_cons, List.length_append, ih, List.length_cons]
    show 2 + 2 * rest.length = 2 * (rest.length + 1)
    omega

/-- The number of Braille-eligible characters of a text (those with a cell
in the table after uppercasing, the space included). -/
def eligibleCount (t : Str) : Nat :=
  (t.map Char.toUpper).countP (fun c => (findMask c).isSome)

/-- **C5.** For every input text, `braille.to_binary_grid` returns a matrix
with exactly 3 rows, and every row has `2 × eligible-character-count`
columns. -/
theorem c5_binary_grid_dimensions (t : Str) :
    (braille.to_binary_grid t).length = 3 ∧
    (braille.to_binary_grid t).map List.length
      = List.replicate 3 (2 * eligibleCount t) := by
  constructor
  · simp [braille.to_binary_grid]
  · unfold braille.to_binary_grid eligibleCount
    have hcount : ((t.map Char.toUpper).filterMap findMask).length
        = (t.map Char.toUpper).countP (fun c => (findMask c).isSome) :=
      List.length_filterMap_eq_countP findMask (t.map Char.toUpper)
    rw [show List.range 3 = [0, 1, 2] from rfl]
    simp only [List.map_cons, List.map_nil]
    rw [flatten_cellBits_length, flatten_cellBits_length, flatten_cellBits_length,
      hcount]
    rfl

/-- **C6.** Every call to `braille.to_punchcard_pattern` with
`cell_width < 2` or `cell_height < 3` is rejected with the descriptive
error before any pattern is rendered; with valid dimensions the renderer
runs, so the 2×3 dot grid is never silently truncated. -/
theorem c6_punchcard_rejects_small_cells (t : Str) (w h : Nat) :
    (w < 2 ∨ h < 3 →
      braille.to_punchcard_pattern t w h = Except.error braille.punchErrMsg) ∧
    (2 ≤ w → 3 ≤ h →
      braille.to_punchcard_pattern t w h = Except.ok (braille.punchRender t w h)) := by
  constructor
  · intro hbad
    unfold braille.to_punchcard_pattern
    rw [if_pos hbad]
  · intro hw hh
    unfold braille.to_punchcard_pattern
    rw [if_neg (by omega)]

theorem c6_punchcard_rejects_small_cells_witness :
    braille.to_punchcard_pattern "hi".toList 1 6 = Except.error braille.punchErrMsg :=
  (c6_punchcard_rejects_small_cells "hi".toList 1 6).1 (Or.inl (by decide))

/-- **C7.** `morse.decode` and `braille.decode` are total on string input:
every unrecognized Morse token and every non-Braille code point resolves to
the `?` placeholder (empty tokens are skipped, the `/` separator becomes a
space), and `braille.decode` yields exactly one character per input
character; neither decoder can fail. -/
theorem c7_decode_total_with_placeholder :
    (∀ tok : Str, tok ≠ [] → tok ≠ ['/'] →
      (∀ p ∈ morseTable, p.2 ≠ tok) → morse.decodeToken tok = ['?']) ∧
    (∀ ch : Char, (∀ p ∈ brailleTable, cellChar p.2 ≠ ch) →
      braille.decodeCell ch = '?') ∧
    (∀ b : Str, (braille.decode b).length = b.length) ∧
    (∀ m : Str, morse.decode m = ((m.splitOn ' ').map morse.decodeToken).flatten) := by
  refine ⟨?_, ?_, ?_, fun _ => rfl⟩
  · intro tok h0 h1 h2
    unfold morse.decodeToken
    rw [if_neg h0, if_neg h1]
    have hnone : findChar tok = none := by
      unfold findChar
      rw [List.find?_eq_none.mpr (fun p hp hbeq => h2 p hp (eq_of_beq hbeq))]
      rfl
    rw [hnone]
  · intro ch h
    unfold braille.decodeCell
    rw [List.find?_eq_none.mpr (fun p hp hbeq => h p hp (eq_of_beq hbeq))]
  · intro b
    exact List.length_map b braille.decodeCell

theorem c7_decode_total_with_placeholder_witness :
    morse.decodeToken "-------".toList = ['?'] ∧
    braille.decodeCell 'x' = '?' ∧
    (braille.decode "⠁x".toList).length = "⠁x".toList.length :=
  ⟨c7_decode_total_with_placeholder.1 "-------".toList (by decide) (by decide)
      (by decide),
    c7_decode_total_with_placeholder.2.1 'x' (by decide),
    c7_decode_total_with_placeholder.2.2.1 "⠁x".toList⟩

theorem splitOn_eq_single {α : Type} [BEq α] [LawfulBEq α] {l : List α} {sep : α}
    (h : sep ∉ l) : l.splitOn sep = [l] := by
  unfold List.splitOn
  apply List.splitOnP_eq_single
  intro x hx hbeq
  exact h ((eq_of_beq hbeq) ▸ hx)

theorem splitOn_append {α : Type} [BEq α] [LawfulBEq α] {xs : List α} {sep : α}
    (h : sep ∉ xs) (ys : List α) :
    (xs ++ sep :: ys).splitOn sep = xs :: ys.splitOn sep := by
  unfold List.splitOn
  refine List.splitOnP_first _ _ ?_ sep ?_ ys
  · intro x hx hbeq
    exact h ((eq_of_beq hbeq) ▸ hx)
  · exact beq_self_eq_true sep

theorem intercalate_single {α : Type} (sep : List α) (l : List α) :
    List.intercalate sep [l] = l := by
  simp [List.intercalate]

theorem intercalate_two {α : Type} (sep : List α) (a b : List α) :
    List.intercalate sep [a, b] = a ++ sep ++ b := by
  simp [List.intercalate]

/-- The on-entry of one Morse symbol: `1×unit` on for a dot, `3×unit` on for
a dash. -/
def symOn (u : Nat) (c : Char) : Bool × Nat :=
  if c = '.' then (true, u) else (true, 3 * u)

theorem filterMap_symbolTiming {u : Nat} {tok : Str}
    (hdd : ∀ c ∈ tok, c = '.' ∨ c = '-') :
    tok.filterMap (morse.symbolTiming u) = tok.map (symOn u) := by
  induction tok with
  | nil => rfl
  | cons c rest ih =>
    have hrest := ih (fun x hx => hdd x (List.mem_cons_of_mem c hx))
    rcases hdd c (List.mem_cons_self c rest) with rfl | rfl <;>
      simp [morse.symbolTiming, symOn, List.filterMap_cons, hrest]

theorem letterTiming_map {u : Nat} {tok : Str}
    (hdd : ∀ c ∈ tok, c = '.' ∨ c = '-') :
    morse.letterTiming u tok = List.intersperse (false, u) (tok.map (symOn u)) := by
  unfold morse.letterTiming
  rw [filterMap_symbolTiming hdd]

theorem intersperse_ne_nil {α : Type} {sep : α} {l : List α} (h : l ≠ []) :
    List.intersperse sep l ≠ [] := by
  cases l with
  | nil => exact absurd rfl h
  | cons a t => cases t <;> simp

theorem letterTiming_ne_nil {u : Nat} {tok : Str} (hne : tok ≠ [])
    (hdd : ∀ c ∈ tok, c = '.' ∨ c = '-') :
    morse.letterTiming u tok ≠ [] := by
  rw [letterTiming_map hdd]
  exact intersperse_ne_nil (by simpa using hne)

theorem to_timing_single {u : Nat} {tok : Str} (hne : tok ≠ [])
    (hdd : ∀ c ∈ tok, c = '.' ∨ c = '-') :
    morse.to_timing tok u = morse.letterTiming u tok := by
  have hsp : ' ' ∉ tok := fun hmem => by
    rcases hdd ' ' hmem with h | h <;> simp at h
  have hslash : tok ≠ ['/'] := by
    intro he; subst he
    rcases hdd '/' (List.mem_cons_self _ _) with h | h <;> simp at h
  have hLT : (!(morse.letterTiming u tok).isEmpty) = true := by
    simp [List.isEmpty_eq_false, letterTiming_ne_nil hne hdd]
  unfold morse.to_timing
  rw [splitOn_eq_single hsp,
    splitOn_eq_single (show (['/'] : Str) ∉ [tok] by
      intro hmem; exact hslash (List.mem_singleton.mp hmem).symm)]
  have hfil : List.filter (fun l => !l.isEmpty) [morse.letterTiming u tok]
      = [morse.letterTiming u tok] := by
    rw [List.filter_cons, if_pos hLT]
    rfl
  rw [List.map_cons, List.map_nil,
    show ([tok].map (morse.letterTiming u)) = [morse.letterTiming u tok] from rfl,
    hfil, intercalate_single, hfil, intercalate_single]

theorem to_timing_letter_gap {u : Nat} {a b : Str} (ha : a ≠ []) (hb : b ≠ [])
    (hda : ∀ c ∈ a, c = '.' ∨ c = '-') (hdb : ∀ c ∈ b, c = '.' ∨ c = '-') :
    morse.to_timing (a ++ ' ' :: b) u
      = morse.to_timing a u ++ (false, 3 * u) :: morse.to_timing b u := by
  have hspa : ' ' ∉ a := fun hmem => by
    rcases hda ' ' hmem with h | h <;> simp at h
  have hspb : ' ' ∉ b := fun hmem => by
    rcases hdb ' ' hmem with h | h <;> simp at h
  have hsla : a ≠ ['/'] := by
    intro he; subst he
    rcases hda '/' (List.mem_cons_self _ _) with h | h <;> simp at h
  have hslb : b ≠ ['/'] := by
    intro he; subst he
    rcases hdb '/' (List.mem_cons_self _ _) with h | h <;> simp at h
  have hLa : (!(morse.letterTiming u a).isEmpty) = true := by
    simp [List.isEmpty_eq_false, letterTiming_ne_nil ha hda]
  have hLb : (!(morse.letterTiming u b).isEmpty) = true := by
    simp [List.isEmpty_eq_false, letterTiming_ne_nil hb hdb]
  rw [to_timing_single ha hda, to_timing_single hb hdb]
  unfold morse.to_timing
  rw [splitOn_append hspa b, splitOn_eq_single hspb,
    splitOn_eq_single (show (['/'] : Str) ∉ [a, b] by
      simp only [List.mem_cons, List.not_mem_nil, or_false, not_or]
      exact ⟨fun h => hsla h.symm, fun h => hslb h.symm⟩)]
  rw [List.map_cons, List.map_nil,
    show ([a, b].map (morse.letterTiming u))
      = [morse.letterTiming u a, morse.letterTiming u b] from rfl]
  have hfil2 : List.filter (fun l => !l.isEmpty)
      [morse.letterTiming u a, morse.letterTiming u b]
      = [morse.letterTiming u a, morse.letterTiming u b] := by
    rw [List.filter_cons, if_pos hLa, List.filter_cons, if_pos hLb]
    rfl
  rw [hfil2, intercalate_two]
  have hne3 : morse.letterTiming u a ++ [(false, 3 * u)] ++ morse.letterTiming u b
      ≠ [] :=
    List.append_ne_nil_of_right_ne_nil _ (letterTiming_ne_nil hb hdb)
  have hcat : (!(morse.letterTiming u a ++ [(false, 3 * u)]
      ++ morse.letterTiming u b).isEmpty) = true := by
    simp [List.isEmpty_eq_false, hne3]
  have hfil1 : List.filter (fun l => !l.isEmpty)
      [morse.letterTiming u a ++ [(false, 3 * u)] ++ morse.letterTiming u b]
      = [morse.letterTiming u a ++ [(false, 3 * u)] ++ morse.letterTiming u b] := by
    rw [List.filter_cons, if_pos hcat]
    rfl
  rw [hfil1, intercalate_single, List.append_assoc, List.singleton_append]

theorem to_timing_word_gap {u : Nat} {a b : Str} (ha : a ≠ []) (hb : b ≠ [])
    (hda : ∀ c ∈ a, c = '.' ∨ c = '-') (hdb : ∀ c ∈ b, c = '.' ∨ c = '-') :
    morse.to_timing (a ++ ' ' :: '/' :: ' ' :: b) u
      = morse.to_timing a u ++ (false, 7 * u) :: morse.to_timing b u := by
  have hspa : ' ' ∉ a := fun hmem => by
    rcases hda ' ' hmem with h | h <;> simp at h
  have hspb : ' ' ∉ b := fun hmem => by
    rcases hdb ' ' hmem with h | h <;> simp at h
  have hsla : a ≠ ['/'] := by
    intro he; subst he
    rcases hda '/' (List.mem_cons_self _ _) with h | h <;> simp at h
  have hslb : b ≠ ['/'] := by
    intro he; subst he
    rcases hdb '/' (List.mem_cons_self _ _) with h | h <;> simp at h
  have hLa : (!(morse.letterTiming u a).isEmpty) = true := by
    simp [List.isEmpty_eq_false, letterTiming_ne_nil ha hda]
  have hLb : (!(morse.letterTiming u b).isEmpty) = true := by
    simp [List.isEmpty_eq_false, letterTiming_ne_nil hb hdb]
  rw [to_timing_single ha hda, to_timing_single hb hdb]
  unfold morse.to_timing
  rw [splitOn_append hspa ('/' :: ' ' :: b)]
  have h2 : (('/' :: ' ' :: b) : Str).splitOn ' ' = ['/'] :: b.splitOn ' ' := by
    have := splitOn_append (show ' ' ∉ (['/'] : Str) by decide) b
    simpa using this
  rw [h2, splitOn_eq_single hspb]
  have h3 : ((a :: ['/'] :: [b]) : List Str).splitOn ['/']
      = [a] :: ([b] : List Str).splitOn ['/'] := by
    have := splitOn_append (show (['/'] : Str) ∉ [a] by
      simp only [List.mem_singleton]; exact fun h => hsla h.symm) [b]
    simpa using this
  rw [h3, splitOn_eq_single (show (['/'] : Str) ∉ ([b] : List Str) by
    simp only [List.mem_singleton]; exact fun h => hslb h.symm)]
  simp only [List.map_cons, List.map_nil]
  have hfa : List.filter (fun l => !l.isEmpty) [morse.letterTiming u a]
      = [morse.letterTiming u a] := by
    rw [List.filter_cons, if_pos hLa]
    rfl
  have hfb : List.filter (fun l => !l.isEmpty) [morse.letterTiming u b]
      = [morse.letterTiming u b] := by
    rw [List.filter_cons, if_pos hLb]
    rfl
  rw [hfa, hfb, intercalate_single, intercalate_single]
  have hfil2 : List.filter (fun l => !l.isEmpty)
      [morse.letterTiming u a, morse.letterTiming u b]
      = [morse.letterTiming u a, morse.letterTiming u b] := by
    rw [List.filter_cons, if_pos hLa, List.filter_cons, if_pos hLb]
    rfl
  rw [hfil2, intercalate_two, List.append_assoc, List.singleton_append]

theorem getLast?_cons_of_ne_nil {α : Type} (a : α) {l : List α} (h : l ≠ []) :
    (a :: l).getLast? = l.getLast? := by
  cases l with
  | nil => exact absurd rfl h
  | cons b t => rw [List.getLast?_cons_cons]

theorem getLast?_intersperse {α : Type} (s : α) :
    ∀ l : List α, (List.intersperse s l).getLast? = l.getLast?
  | [] => rfl
  | [x] => rfl
  | x :: y :: t => by
    rw [List.intersperse_cons_cons,
      getLast?_cons_of_ne_nil x (List.cons_ne_nil s _),
      getLast?_cons_of_ne_nil s (intersperse_ne_nil (List.cons_ne_nil y t)),
      getLast?_intersperse s (y :: t),
      getLast?_cons_of_ne_nil x (List.cons_ne_nil y t)]

theorem filterMap_symbolTiming_fst {u : Nat} (tok : Str) :
    ∀ e ∈ tok.filterMap (morse.symbolTiming u), e.1 = true := by
  intro e he
  rw [List.mem_filterMap] at he
  obtain ⟨c, -, hc⟩ := he
  unfold morse.symbolTiming at hc
  by_cases h1 : c = '.'
  · rw [if_pos h1] at hc
    cases hc
    rfl
  · rw [if_neg h1] at hc
    by_cases h2 : c = '-'
    · rw [if_pos h2] at hc
      cases hc
      rfl
    · rw [if_neg h2] at hc
      cases hc

theorem letterTiming_lastOn (u : Nat) (tok : Str) :
    morse.letterTiming u tok = []
      ∨ ∃ d, (morse.letterTiming u tok).getLast? = some (true, d) := by
  unfold morse.letterTiming
  rcases hsy : tok.filterMap (morse.symbolTiming u) with _ | ⟨e, es⟩
  · exact Or.inl rfl
  · right
    rw [getLast?_intersperse]
    have hlast := List.getLast?_eq_getLast (e :: es) (List.cons_ne_nil e es)
    have hx : (e :: es).getLast (List.cons_ne_nil e es) ∈ e :: es :=
      List.getLast_mem (List.cons_ne_nil e es)
    have hfst : ((e :: es).getLast (List.cons_ne_nil e es)).1 = true :=
      filterMap_symbolTiming_fst tok _ (by rw [hsy]; exact hx)
    refine ⟨((e :: es).getLast (List.cons_ne_nil e es)).2, ?_⟩
    rw [hlast, ← hfst]

theorem intercalate_cons_cons {α : Type} (sep : List α) (a b : List α)
    (rest : List (List α)) :
    List.intercalate sep (a :: b :: rest)
      = a ++ sep ++ List.intercalate sep (b :: rest) := by
  simp [List.intercalate, List.intersperse_cons_cons, List.append_assoc]

theorem intercalate_ne_nil {α : Type} {sep : α} {y : List α} (h : y ≠ [])
    (t : List (List α)) : List.intercalate [sep] (y :: t) ≠ [] := by
  cases t with
  | nil =>
    rw [intercalate_single]
    exact h
  | cons z t' =>
    rw [intercalate_cons_cons]
    simp

theorem intercalate_lastOn (sep : Bool × Nat) :
    ∀ ys : List (List (Bool × Nat)),
      (∀ y ∈ ys, y ≠ [] ∧ ∃ d, y.getLast? = some (true, d)) →
      List.intercalate [sep] ys = []
        ∨ ∃ d, (List.intercalate [sep] ys).getLast? = some (true, d)
  | [], _ => Or.inl rfl
  | [y], h => Or.inr (by rw [intercalate_single]; exact (h y (by simp)).2)
  | y :: y2 :: t, h => by
    right
    rw [intercalate_cons_cons]
    have hrec := intercalate_lastOn sep (y2 :: t)
      (fun z hz => h z (List.mem_cons_of_mem y hz))
    have hne : List.intercalate [sep] (y2 :: t) ≠ [] :=
      intercalate_ne_nil (h y2 (by simp)).1 t
    rcases hrec with h0 | ⟨d, hd⟩
    · exact absurd h0 hne
    · refine ⟨d, ?_⟩
      rw [List.getLast?_append_of_ne_nil _ hne]
      exact hd

theorem wordTiming_lastOn (u : Nat) (w : List Str) :
    List.intercalate [(false, 3 * u)]
        ((w.map (morse.letterTiming u)).filter (fun l => !l.isEmpty)) = []
      ∨ ∃ d, (List.intercalate [(false, 3 * u)]
        ((w.map (morse.letterTiming u)).filter (fun l => !l.isEmpty))).getLast?
          = some (true, d) := by
  apply intercalate_lastOn
  intro y hy
  rw [List.mem_filter] at hy
  obtain ⟨hymem, hyne⟩ := hy
  constructor
  · intro he
    rw [he] at hyne
    simp at hyne
  · rw [List.mem_map] at hymem
    obtain ⟨tok, -, rfl⟩ := hymem
    rcases letterTiming_lastOn u tok with h0 | h
    · rw [h0] at hyne
      simp at hyne
    · exact h

theorem to_timing_lastOn (m : Str) (u : Nat) :
    morse.to_timing m u = []
      ∨ ∃ d, (morse.to_timing m u).getLast? = some (true, d) := by
  unfold morse.to_timing
  apply intercalate_lastOn
  intro y hy
  rw [List.mem_filter] at hy
  obtain ⟨hymem, hyne⟩ := hy
  constructor
  · intro he
    rw [he] at hyne
    simp at hyne
  · rw [List.mem_map] at hymem
    obtain ⟨w, -, rfl⟩ := hymem
    rcases wordTiming_lastOn u w with h0 | h
    · rw [h0] at hyne
      simp at hyne
    · exact h


theorem mem_of_mem_intersperse {α : Type} {s x : α} :
    ∀ {l : List α}, x ∈ List.intersperse s l → x ∈ l ∨ x = s
  | [], h => absurd h (by simp)
  | [a], h => Or.inl (by simpa using h)
  | a :: b :: t, h => by
    rw [List.intersperse_cons_cons, List.mem_cons, List.mem_cons] at h
    rcases h with rfl | rfl | h
    · exact Or.inl (List.mem_cons_self _ _)
    · exact Or.inr rfl
    · rcases mem_of_mem_intersperse h with hmem | rfl
      · exact Or.inl (List.mem_cons_of_mem a hmem)
      · exact Or.inr rfl

theorem mem_intercalate_singleton_sep {α : Type} {sep x : α}
    {ls : List (List α)} (h : x ∈ List.intercalate [sep] ls) :
    (∃ l ∈ ls, x ∈ l) ∨ x = sep := by
  unfold List.intercalate at h
  rw [List.mem_flatten] at h
  obtain ⟨chunk, hchunk, hx⟩ := h
  rcases mem_of_mem_intersperse hchunk with hmem | rfl
  · exact Or.inl ⟨chunk, hmem, hx⟩
  · exact Or.inr (by simpa using hx)

theorem splitOn_intercalate_of_ne_nil {α : Type} [BEq α] [LawfulBEq α] (sep : α) :
    ∀ ls : List (List α), ls ≠ [] → (∀ l ∈ ls, sep ∉ l) →
      (List.intercalate [sep] ls).splitOn sep = ls
  | [], h, _ => absurd rfl h
  | [l], _, hfree => by
    rw [intercalate_single]
    exact splitOn_eq_single (hfree l (by simp))
  | l :: l2 :: t, _, hfree => by
    rw [intercalate_cons_cons, List.append_assoc, List.singleton_append,
      splitOn_append (hfree l (by simp)),
      splitOn_intercalate_of_ne_nil sep (l2 :: t) (List.cons_ne_nil l2 t)
        (fun x hx => hfree x (List.mem_cons_of_mem l hx))]

theorem to_timing_general (u : Nat) (ws : List (List Str)) (hne : ws ≠ [])
    (hw : ∀ w ∈ ws, w ≠ [])
    (htok : ∀ w ∈ ws, ∀ tok ∈ w, tok ≠ [] ∧ ∀ c ∈ tok, c = '.' ∨ c = '-') :
    morse.to_timing (List.intercalate [' '] (List.intercalate [['/']] ws)) u
      = List.intercalate [(false, 7 * u)] (ws.map (fun w =>
          List.intercalate [(false, 3 * u)] (w.map (fun tok =>
            List.intersperse (false, u) (tok.map (symOn u)))))) := by
  have hfree : ∀ tok ∈ List.intercalate [(['/'] : Str)] ws, ' ' ∉ tok := by
    intro tok htokmem hsp
    rcases mem_intercalate_singleton_sep htokmem with ⟨w, hwmem, htokw⟩ | rfl
    · rcases (htok w hwmem tok htokw).2 ' ' hsp with h | h <;> simp at h
    · simp at hsp
  have htoksne : List.intercalate [(['/'] : Str)] ws ≠ [] := by
    cases ws with
    | nil => exact absurd rfl hne
    | cons w rest => exact intercalate_ne_nil (hw w (by simp)) rest
  have hnoslash : ∀ w ∈ ws, (['/'] : Str) ∉ w := by
    intro w hwmem hin
    rcases (htok w hwmem ['/'] hin).2 '/' (by simp) with h | h <;> simp at h
  unfold morse.to_timing
  rw [splitOn_intercalate_of_ne_nil ' ' (List.intercalate [['/']] ws)
        htoksne hfree,
    splitOn_intercalate_of_ne_nil ['/'] ws hne hnoslash]
  have hmapfil : ws.map (fun w => List.intercalate [(false, 3 * u)]
        ((w.map (morse.letterTiming u)).filter (fun l => !l.isEmpty)))
      = ws.map (fun w => List.intercalate [(false, 3 * u)] (w.map (fun tok =>
          List.intersperse (false, u) (tok.map (symOn u))))) := by
    apply List.map_congr_left
    intro w hwmem
    have hinner : (w.map (morse.letterTiming u)).filter (fun l => !l.isEmpty)
        = w.map (morse.letterTiming u) := by
      rw [List.filter_eq_self]
      intro l hl
      rw [List.mem_map] at hl
      obtain ⟨tok, htokmem, rfl⟩ := hl
      simp [List.isEmpty_eq_false,
        letterTiming_ne_nil (htok w hwmem tok htokmem).1
          (htok w hwmem tok htokmem).2]
    rw [hinner]
    congr 1
    apply List.map_congr_left
    intro tok htokmem
    exact letterTiming_map (htok w hwmem tok htokmem).2
  rw [hmapfil]
  have houter : (ws.map (fun w => List.intercalate [(false, 3 * u)]
        (w.map (fun tok => List.intersperse (false, u)
          (tok.map (symOn u)))))).filter (fun l => !l.isEmpty)
      = ws.map (fun w => List.intercalate [(false, 3 * u)]
        (w.map (fun tok => List.intersperse (false, u)
          (tok.map (symOn u))))) := by
    rw [List.filter_eq_self]
    intro wt hwt
    rw [List.mem_map] at hwt
    obtain ⟨w, hwmem, rfl⟩ := hwt
    rcases hwshape : w with _ | ⟨tok0, wrest⟩
    · exact absurd hwshape (hw w hwmem)
    · have h0 : List.intersperse (false, u) (tok0.map (symOn u)) ≠ [] := by
        apply intersperse_ne_nil
        simpa using (htok w hwmem tok0 (by rw [hwshape]; simp)).1
      have hwtne : List.intercalate [(false, 3 * u)]
          (List.intersperse (false, u) (tok0.map (symOn u))
            :: wrest.map (fun tok => List.intersperse (false, u)
              (tok.map (symOn u)))) ≠ [] :=
        intercalate_ne_nil h0
          (wrest.map (fun tok => List.intersperse (false, u) (tok.map (symOn u))))
      rw [List.map_cons]
      simp [List.isEmpty_eq_false, hwtne]
  rw [houter]


/-- **C4.** For every Morse string in STANDARD convention — a nonempty
sequence of words, each a nonempty sequence of nonempty dot/dash letters,
rendered with single-space letter separators and `/` word separators — and
every unit, `morse.to_timing` is exactly the canonical schedule: one
`1×unit` on-entry per dot and one `3×unit` on-entry per dash (`symOn`),
a `1×unit` off-gap between symbols inside a letter (`intersperse`), a
single `3×unit` off-gap between letters and a single `7×unit` off-gap
between words (`intercalate`), with no trailing separator anywhere; for an
arbitrary string a nonempty schedule always ends in an on-entry (no gap
after the final symbol); in particular `to_timing ".-" 100` is exactly
`[(on,100),(off,100),(on,300)]`. -/
theorem c4_to_timing_convention :
    (∀ (u : Nat) (ws : List (List Str)), ws ≠ [] → (∀ w ∈ ws, w ≠ []) →
      (∀ w ∈ ws, ∀ tok ∈ w, tok ≠ [] ∧ ∀ c ∈ tok, c = '.' ∨ c = '-') →
      morse.to_timing (List.intercalate [' '] (List.intercalate [['/']] ws)) u
        = List.intercalate [(false, 7 * u)] (ws.map (fun w =>
            List.intercalate [(false, 3 * u)] (w.map (fun tok =>
              List.intersperse (false, u) (tok.map (symOn u))))))) ∧
    (∀ (m : Str) (u : Nat), morse.to_timing m u = []
      ∨ ∃ d, (morse.to_timing m u).getLast? = some (true, d)) ∧
    morse.to_timing ".-".toList 100 = [(true, 100), (false, 100), (true, 300)] :=
  ⟨to_timing_general, fun m u => to_timing_lastOn m u, by decide⟩

theorem c4_to_timing_convention_witness :
    morse.to_timing (List.intercalate [' '] (List.intercalate [['/']]
        [["...".toList, "---".toList, "...".toList], ["-".toList]])) 100
      = List.intercalate [(false, 7 * 100)]
          (([["...".toList, "---".toList, "...".toList],
            ["-".toList]]).map (fun w =>
            List.intercalate [(false, 3 * 100)] (w.map (fun tok =>
              List.intersperse (false, 100) (tok.map (symOn 100)))))) :=
  c4_to_timing_convention.1 100
    [["...".toList, "---".toList, "...".toList], ["-".toList]]
    (by decide) (by decide) (by decide)
